import Mathlib

/-!
Shallow embedding of `main.py`, a single-player 36-card patience game:
a `Card` has a suit and an integer value, a `Deck` is a Python list of
cards consumed by `list.pop()` from its end, and a `Board` holds four
slots (Python lists of cards) plus the deck.  Python lists used as
stacks are embedded as Lean lists with the HEAD as the stack TOP:
`slot.append(c)` is `c :: slot`, `slot.pop()` is `slot.tail`, and
`slot[-1]` is `slot.head?`.  Mutation is embedded as explicit state
passing; exceptions as `Except`.
-/

/-- Class `Card(suit, value)` from `main.py` lines 8-11: an immutable pair of a
suit string and an integer value. -/
structure Card where
  suit : String
  value : Nat
deriving DecidableEq

/-- An argument passed to `Card.lower`: Python is dynamically typed, so the
argument is either a `Card` or some non-`Card` object (the `isinstance`
check in the source only distinguishes those two cases; the `Nat` tag
stands for the identity of an arbitrary non-`Card` object). -/
inductive PyVal where
  | card : Card → PyVal
  | obj : Nat → PyVal
deriving DecidableEq

/-- Method `Card.lower` (`main.py` lines 16-21): false for non-`Card` arguments,
false across suits, otherwise strict comparison of the values. -/
def Card.lower (self : Card) (other : PyVal) : Bool :=
  match other with
  | .obj _ => false            -- `if not isinstance(other, Card): return False`
  | .card o =>
    if self.suit ≠ o.suit then false   -- `if self._suit != other._suit: return False`
    else decide (self.value < o.value) -- `return self._value < other._value`

/-- The kinds of exception relevant to `Deck.draw`: `indexError` is what
Python's `list.pop()` raises on an empty list; `emptyDeckError` is the
dedicated error the specification claims, included here only so the two
can be compared — no such class exists anywhere in `main.py`. -/
inductive PyError where
  | indexError
  | emptyDeckError
deriving DecidableEq

/-- Constant `Deck.cards_per_suit` (`main.py` line 25). -/
def Deck.cards_per_suit : Nat := 9

/-- Constant `Deck.min_value` (`main.py` line 26). -/
def Deck.min_value : Nat := 6

/-- The deck contents built by `Deck.__init__` (`main.py` lines 28-34)
before the shuffle: all four suits times the nine values `6..14`.
The shuffle is embedded by quantifying over arbitrary deck orders in the
theorems, so this fixed order is only one instance. -/
def Deck.full : List Card :=
  ["Schelle", "Schilte", "Eichel", "Rose"].flatMap (fun suit =>
    (List.range Deck.cards_per_suit).map (fun k => ⟨suit, Deck.min_value + k⟩))

/-- Method `Deck.draw` (`main.py` lines 37-38): `return self._cards.pop()`.
Python's `list.pop()` raises a generic `IndexError` on an empty list and
otherwise removes and returns the LAST element; the deck list is kept in
Python order, so the draw end is the end of the Lean list. -/
def Deck.draw (cards : List Card) : Except PyError (Card × List Card) :=
  match cards.getLast? with
  | none => .error .indexError
  | some c => .ok (c, cards.dropLast)

/-- The board's slot collection: four Python lists of cards (head = top). -/
abbrev Slots := List (List Card)

/-- Total number of cards lying in the slots. -/
def total_cards (slots : Slots) : Nat := (slots.map List.length).sum

/-- Sum of squared slot sizes; the termination measure of the
stabilization loop in `play_turn`. -/
def sq_measure (slots : Slots) : Nat := (slots.map (fun s => s.length * s.length)).sum

/-- Statement `slots[i].pop()`: drop the top card of slot `i`. -/
def popAt (slots : Slots) (i : Nat) : Slots := slots.set i ((slots.getD i []).tail)

/-- Expression `itertools.permutations(range(n), 2)` (`main.py` line 69): all ordered
pairs of distinct indices below `n`, enumerated lexicographically. -/
def perms2 (n : Nat) : List (Nat × Nat) :=
  (List.range n).flatMap (fun i1 =>
    ((List.range n).filter (fun i2 => decide (i2 ≠ i1))).map (fun i2 => (i1, i2)))

/-- One `(i1, i2)` step of the scan in `_remove_cards` (`main.py` lines
70-77): skip the pair if either slot is empty; otherwise compare the two
top cards and report `i1` as the slot to pop when `top(i1)` is lower. -/
def removal_at (slots : Slots) (p : Nat × Nat) : Option Nat :=
  match (slots.getD p.1 []).head?, (slots.getD p.2 []).head? with
  | some card1, some card2 => if card1.lower (.card card2) then some p.1 else none
  | _, _ => none

/-- The inner `for` loop of `_remove_cards`: the first pair of the
`permutations` enumeration that triggers a removal, if any. -/
def firstRemoval (slots : Slots) : Option Nat :=
  (perms2 slots.length).findSome? (removal_at slots)

lemma getD_nil (i : Nat) : ([] : Slots).getD i [] = [] := by
  cases i <;> rfl

lemma getD_set_self (l : Slots) (i : Nat) (v : List Card) (h : i < l.length) :
    (l.set i v).getD i [] = v := by
  induction l generalizing i with
  | nil => simp at h
  | cons hd tl ih =>
    cases i with
    | zero => rfl
    | succ n => exact ih n (by simpa using h)

lemma getD_set_ne (l : Slots) (i j : Nat) (v : List Card) (h : i ≠ j) :
    (l.set i v).getD j [] = l.getD j [] := by
  simp only [List.getD_eq_getElem?_getD]
  rw [List.getElem?_set_ne h]

lemma map_sum_set (f : List Card → Nat) (l : Slots) (i : Nat) (v : List Card)
    (h : i < l.length) :
    ((l.set i v).map f).sum + f (l.getD i []) = (l.map f).sum + f v := by
  induction l generalizing i with
  | nil => simp at h
  | cons hd tl ih =>
    cases i with
    | zero => simp [List.set]; omega
    | succ n =>
      have := ih n (by simpa using h)
      simp only [List.set, List.map_cons, List.sum_cons, List.getD_cons_succ]
      omega

lemma mem_perms2 {n i j : Nat} : (i, j) ∈ perms2 n ↔ i < n ∧ j < n ∧ i ≠ j := by
  simp only [perms2, List.mem_flatMap, List.mem_map, List.mem_filter, List.mem_range]
  constructor
  · rintro ⟨a, ha, b, ⟨hb, hne⟩, heq⟩
    obtain ⟨h1, h2⟩ := Prod.mk.injEq .. ▸ heq
    subst h1; subst h2
    exact ⟨ha, hb, fun hij => (by simp [hij] at hne)⟩
  · rintro ⟨hi, hj, hne⟩
    exact ⟨i, hi, j, ⟨hj, by simpa using hne.symm⟩, rfl⟩

lemma removal_at_some {slots : Slots} {p : Nat × Nat} {i : Nat}
    (h : removal_at slots p = some i) :
    p.1 = i ∧ slots.getD p.1 [] ≠ [] := by
  unfold removal_at at h
  rcases hh1 : (slots.getD p.1 []).head? with _ | c1 <;> rw [hh1] at h
  · simp at h
  · rcases hh2 : (slots.getD p.2 []).head? with _ | c2 <;> rw [hh2] at h
    · simp at h
    · by_cases hl : c1.lower (.card c2) = true
      · simp [hl] at h
        refine ⟨h, ?_⟩
        intro hnil
        rw [hnil] at hh1
        simp at hh1
      · simp [hl] at h

lemma firstRemoval_some {slots : Slots} {i : Nat}
    (h : firstRemoval slots = some i) :
    i < slots.length ∧ slots.getD i [] ≠ [] := by
  obtain ⟨p, hmem, hp⟩ := List.exists_of_findSome?_eq_some h
  obtain ⟨h1, h2⟩ := removal_at_some hp
  subst h1
  rcases p with ⟨p1, p2⟩
  exact ⟨(mem_perms2.mp hmem).1, h2⟩

lemma total_cards_popAt {slots : Slots} {i : Nat}
    (hi : i < slots.length) (hne : slots.getD i [] ≠ []) :
    total_cards (popAt slots i) + 1 = total_cards slots := by
  have := map_sum_set List.length slots i ((slots.getD i []).tail) hi
  rcases hc : slots.getD i [] with _ | ⟨c, rest⟩
  · exact absurd hc hne
  · rw [hc] at this
    simp only [List.tail_cons, List.length_cons] at this
    unfold total_cards popAt
    rw [hc]
    simp only [List.tail_cons]
    omega

lemma total_cards_popAt_lt {slots : Slots} {i : Nat}
    (h : firstRemoval slots = some i) :
    total_cards (popAt slots i) < total_cards slots := by
  obtain ⟨hi, hne⟩ := firstRemoval_some h
  have := total_cards_popAt hi hne
  omega

/-- The `while to_check` fixed-point loop of `_remove_cards` (`main.py`
lines 66-80): resolve the first eligible pair, pop that slot's top and
count it, then restart the full pair scan; stop when a complete pass
finds nothing.  Returns the stabilized slots and the removal count. -/
def removeLoop (slots : Slots) : Slots × Nat :=
  match h : firstRemoval slots with
  | none => (slots, 0)
  | some i1 =>
    let r := removeLoop (popAt slots i1)
    (r.1, r.2 + 1)
termination_by total_cards slots
decreasing_by exact total_cards_popAt_lt h

lemma removeLoop_none {slots : Slots} (h : firstRemoval slots = none) :
    removeLoop slots = (slots, 0) := by
  rw [removeLoop.eq_def]
  split
  · rfl
  · rename_i heq
    rw [h] at heq
    exact absurd heq (by simp)

lemma removeLoop_some {slots : Slots} {i : Nat} (h : firstRemoval slots = some i) :
    removeLoop slots = ((removeLoop (popAt slots i)).1, (removeLoop (popAt slots i)).2 + 1) := by
  rw [removeLoop.eq_def]
  split
  · rename_i heq
    rw [h] at heq
    exact absurd heq (by simp)
  · rename_i i' heq
    rw [h] at heq
    cases heq
    rfl

/-- The loop of `_remove_cards` stops only at a fixed point: no pair of
the scan is eligible on the slots it returns. -/
lemma firstRemoval_removeLoop (slots : Slots) : firstRemoval (removeLoop slots).1 = none := by
  induction slots using removeLoop.induct with
  | case1 s h => rw [removeLoop_none h]; exact h
  | case2 s i h ih => rw [removeLoop_some h]; exact ih

/-- The loop of `_remove_cards` conserves cards: final slot total plus
removal count equals the initial slot total. -/
lemma removeLoop_conserves (slots : Slots) :
    total_cards (removeLoop slots).1 + (removeLoop slots).2 = total_cards slots := by
  induction slots using removeLoop.induct with
  | case1 s h =>
    rw [removeLoop_none h]
    simp
  | case2 s i h ih =>
    rw [removeLoop_some h]
    obtain ⟨hi, hne⟩ := firstRemoval_some h
    have := total_cards_popAt hi hne
    simp only
    omega

lemma removeLoop_length (slots : Slots) : (removeLoop slots).1.length = slots.length := by
  induction slots using removeLoop.induct with
  | case1 s h => rw [removeLoop_none h]
  | case2 s i h ih =>
    rw [removeLoop_some h]
    simpa [popAt] using ih

lemma sq_measure_popAt_le {slots : Slots} {i : Nat} (hi : i < slots.length) :
    sq_measure (popAt slots i) ≤ sq_measure slots := by
  have h2 := map_sum_set (fun s => s.length * s.length) slots i ((slots.getD i []).tail) hi
  simp only at h2
  unfold sq_measure popAt
  have hlen : (slots.getD i []).tail.length ≤ (slots.getD i []).length := by
    rw [List.length_tail]
    omega
  have hsq : (slots.getD i []).tail.length * (slots.getD i []).tail.length ≤
      (slots.getD i []).length * (slots.getD i []).length :=
    Nat.mul_le_mul hlen hlen
  omega

lemma sq_measure_removeLoop_le (slots : Slots) :
    sq_measure (removeLoop slots).1 ≤ sq_measure slots := by
  induction slots using removeLoop.induct with
  | case1 s h => rw [removeLoop_none h]
  | case2 s i h ih =>
    rw [removeLoop_some h]
    exact le_trans ih (sq_measure_popAt_le (firstRemoval_some h).1)

/-- Expression `copy.deepcopy(self._slots)` (`main.py` line 61): a full structural
copy of the slot collection, sharing nothing with the original. -/
def deepcopy (slots : Slots) : Slots :=
  slots.map (fun slot => slot.map (fun c => ⟨c.suit, c.value⟩))

lemma deepcopy_eq (slots : Slots) : deepcopy slots = slots := by
  unfold deepcopy
  have : ∀ slot : List Card, slot.map (fun c => (⟨c.suit, c.value⟩ : Card)) = slot := by
    intro slot
    induction slot with
    | nil => rfl
    | cons c rest ih => simp [ih]
  simp [this]

/-- Method `Board._remove_cards` (`main.py` lines 59-84): in simulate mode the
loop runs on a deep copy and the live slots are untouched; otherwise the
loop mutates the live slots.  Returns (live slots after the call,
removal count). -/
def Board.remove_cards (slots : Slots) (simulate : Bool) : Slots × Nat :=
  let work := if simulate then deepcopy slots else slots
  let r := removeLoop work
  if simulate then (slots, r.2) else r

lemma remove_cards_false (slots : Slots) : Board.remove_cards slots false = removeLoop slots := by
  rfl

lemma remove_cards_true (slots : Slots) :
    Board.remove_cards slots true = (slots, (removeLoop slots).2) := by
  unfold Board.remove_cards
  simp [deepcopy_eq]

/-- One candidate step of the `for` scan in `_check_best_to_move`
(`main.py` lines 94-102): slots with at most one card are skipped;
otherwise the candidate's top card is popped, the removal pass is
simulated on the resulting board, the card is restored, and the
candidate replaces the incumbent iff its count strictly exceeds it. -/
def check_step (slots : Slots) (acc : Int × Option Nat) (i : Nat) : Int × Option Nat :=
  let slot := slots.getD i []
  if 1 < slot.length then
    let removed_count : Int := ((Board.remove_cards (popAt slots i) true).2 : Int)
    if acc.1 < removed_count then (removed_count, some i) else acc
  else acc

/-- The full `for` scan over all slots in `_check_best_to_move`. -/
def check_scan (slots : Slots) (st : Int × Option Nat) : Int × Option Nat :=
  (List.range slots.length).foldl (check_step slots) st

/-- The `while to_check` wrapper of `_check_best_to_move` (`main.py`
lines 90-102): line 92 clears the flag at the top of the body and
nothing in the `for` scan ever sets it again, so the recursive call
always carries `false`. -/
def check_loop (slots : Slots) (to_check : Bool) (st : Int × Option Nat) : Int × Option Nat :=
  if to_check then check_loop slots false (check_scan slots st) else st
termination_by (if to_check then 1 else 0)
decreasing_by simp_all

/-- Method `Board._check_best_to_move` (`main.py` lines 86-106): the tracked
best slot after the wrapped scan, starting from the sentinel `-1`.
The source returns the winning slot object (or `None`); here the slot is
identified by its index. -/
def Board.check_best_to_move (slots : Slots) : Option Nat :=
  (check_loop slots true (-1, none)).2

/-- The same search written without the outer `while` wrapper, following
the spec's description of the observed behavior (one full scan). -/
def check_best_to_move_single (slots : Slots) : Option Nat :=
  (check_scan slots (-1, none)).2

lemma check_loop_false (slots : Slots) (st : Int × Option Nat) :
    check_loop slots false st = st := by
  rw [check_loop]
  simp

lemma check_loop_true (slots : Slots) (st : Int × Option Nat) :
    check_loop slots true st = check_scan slots st := by
  rw [check_loop]
  simp [check_loop_false]

lemma check_best_eq_single (slots : Slots) :
    Board.check_best_to_move slots = check_best_to_move_single slots := by
  unfold Board.check_best_to_move check_best_to_move_single
  rw [check_loop_true]

/-- The look-ahead value of candidate slot `i`: the count reported by the
simulated removal pass on the board with slot `i`'s top card popped. -/
def simCount (slots : Slots) (i : Nat) : Nat :=
  (Board.remove_cards (popAt slots i) true).2

lemma check_step_simCount (slots : Slots) (acc : Int × Option Nat) (i : Nat) :
    check_step slots acc i =
      if 1 < (slots.getD i []).length then
        (if acc.1 < (simCount slots i : Int) then ((simCount slots i : Int), some i) else acc)
      else acc := by
  rfl

/-- Invariant of the `for` scan in `_check_best_to_move` after the slots
listed in `seen` have been examined: either nothing eligible was seen and
the accumulator still holds the sentinel, or it holds the first seen slot
achieving the maximum simulated count among the eligible seen slots. -/
def ScanInv (slots : Slots) (seen : List Nat) (acc : Int × Option Nat) : Prop :=
  (acc = (-1, none) ∧ ∀ j ∈ seen, ¬ 1 < (slots.getD j []).length)
  ∨ (∃ i ∈ seen, acc = ((simCount slots i : Int), some i) ∧ 1 < (slots.getD i []).length ∧
      ∀ j ∈ seen, 1 < (slots.getD j []).length → simCount slots j ≤ simCount slots i)

lemma check_step_inv {slots : Slots} {seen : List Nat} {acc : Int × Option Nat} (x : Nat)
    (h : ScanInv slots seen acc) :
    ScanInv slots (seen ++ [x]) (check_step slots acc x) := by
  have hmem : ∀ j : Nat, j ∈ seen ++ [x] ↔ j ∈ seen ∨ j = x := by simp
  rw [check_step_simCount]
  by_cases hx : 1 < (slots.getD x []).length
  · rw [if_pos hx]
    by_cases hgt : acc.1 < (simCount slots x : Int)
    · rw [if_pos hgt]
      right
      refine ⟨x, by simp, rfl, hx, ?_⟩
      intro j hj hje
      rcases (hmem j).mp hj with hj' | rfl
      · rcases h with ⟨hacc, hnone⟩ | ⟨i, hi, hacc, hie, hmax⟩
        · exact absurd hje (hnone j hj')
        · have h1 := hmax j hj' hje
          rw [hacc] at hgt
          simp only at hgt
          have h2 : simCount slots i < simCount slots x := by exact_mod_cast hgt
          omega
      · exact le_refl _
    · rw [if_neg hgt]
      rcases h with ⟨hacc, hnone⟩ | ⟨i, hi, hacc, hie, hmax⟩
      · exfalso
        rw [hacc] at hgt
        simp only at hgt
        omega
      · right
        refine ⟨i, (hmem i).mpr (Or.inl hi), hacc, hie, ?_⟩
        intro j hj hje
        rcases (hmem j).mp hj with hj' | rfl
        · exact hmax j hj' hje
        · rw [hacc] at hgt
          simp only at hgt
          exact_mod_cast not_lt.mp hgt
  · rw [if_neg hx]
    rcases h with ⟨hacc, hnone⟩ | ⟨i, hi, hacc, hie, hmax⟩
    · left
      refine ⟨hacc, ?_⟩
      intro j hj
      rcases (hmem j).mp hj with hj' | rfl
      · exact hnone j hj'
      · exact hx
    · right
      refine ⟨i, (hmem i).mpr (Or.inl hi), hacc, hie, ?_⟩
      intro j hj hje
      rcases (hmem j).mp hj with hj' | rfl
      · exact hmax j hj' hje
      · exact absurd hje hx

lemma check_scan_inv (slots : Slots) (l : List Nat) (seen : List Nat) (acc : Int × Option Nat)
    (h : ScanInv slots seen acc) :
    ScanInv slots (seen ++ l) (l.foldl (check_step slots) acc) := by
  induction l generalizing seen acc with
  | nil => simpa using h
  | cons x rest ih =>
    have h2 := ih (seen ++ [x]) (check_step slots acc x) (check_step_inv x h)
    simpa [List.append_assoc] using h2

lemma check_scan_result (slots : Slots) :
    ScanInv slots (List.range slots.length) (check_scan slots (-1, none)) := by
  have h0 : ScanInv slots [] (-1, none) := Or.inl ⟨rfl, by simp⟩
  have h1 := check_scan_inv slots (List.range slots.length) [] (-1, none) h0
  simpa [check_scan] using h1

/-- Method `_check_best_to_move` returns `None` exactly when no slot holds more
than one card. -/
lemma check_best_none_iff (slots : Slots) :
    Board.check_best_to_move slots = none ↔
      ∀ j < slots.length, ¬ 1 < (slots.getD j []).length := by
  rw [check_best_eq_single]
  unfold check_best_to_move_single
  have h := check_scan_result slots
  constructor
  · intro hn j hj hje
    rcases h with ⟨hacc, hnone⟩ | ⟨i, hi, hacc, hie, hmax⟩
    · exact hnone j (List.mem_range.mpr hj) hje
    · rw [hacc] at hn
      simp at hn
  · intro hall
    rcases h with ⟨hacc, hnone⟩ | ⟨i, hi, hacc, hie, hmax⟩
    · rw [hacc]
    · exact absurd hie (hall i (List.mem_range.mp hi))

/-- When `_check_best_to_move` returns a slot, that slot holds more than
one card and its simulated count is maximal among all candidates. -/
lemma check_best_some {slots : Slots} {i : Nat} (h : Board.check_best_to_move slots = some i) :
    i < slots.length ∧ 1 < (slots.getD i []).length ∧
      ∀ j < slots.length, 1 < (slots.getD j []).length → simCount slots j ≤ simCount slots i := by
  rw [check_best_eq_single] at h
  unfold check_best_to_move_single at h
  have hs := check_scan_result slots
  rcases hs with ⟨hacc, hnone⟩ | ⟨k, hk, hacc, hke, hmax⟩
  · rw [hacc] at h
    simp at h
  · rw [hacc] at h
    simp only at h
    cases h
    exact ⟨List.mem_range.mp hk, hke, fun j hj hje => hmax j (List.mem_range.mpr hj) hje⟩

/-- Statements `free_slots = [slot for slot in self._slots if len(slot) == 0]`
followed by `free_slots[0]` (`main.py` lines 118 and 124): the index of
the first empty slot, if any. -/
def first_free (slots : Slots) : Option Nat :=
  (List.range slots.length).find? (fun i => (slots.getD i []).length == 0)

lemma first_free_some {slots : Slots} {f : Nat} (h : first_free slots = some f) :
    f < slots.length ∧ (slots.getD f []).length = 0 := by
  have h1 := List.find?_some h
  have h2 := List.mem_of_find?_eq_some h
  simp only [beq_iff_eq] at h1
  exact ⟨List.mem_range.mp h2, h1⟩

/-- Statement `free_slots[0].append(slot.pop())` (`main.py` line 124): pop the top
card of slot `i`, then push it onto slot `f`. -/
def move_top (slots : Slots) (i f : Nat) : Slots :=
  let c := (slots.getD i []).headD ⟨"", 0⟩
  let s' := slots.set i ((slots.getD i []).tail)
  s'.set f (c :: s'.getD f [])

lemma total_cards_move {slots : Slots} {i f : Nat}
    (hi : i < slots.length) (hf : f < slots.length)
    (hie : 1 < (slots.getD i []).length) (hfe : (slots.getD f []).length = 0) :
    total_cards (move_top slots i f) = total_cards slots := by
  have hne : i ≠ f := fun h => by rw [h, hfe] at hie; omega
  have hgf : (slots.set i ((slots.getD i []).tail)).getD f [] = slots.getD f [] :=
    getD_set_ne slots i f _ hne
  unfold move_top total_cards
  simp only [hgf]
  have h1 := map_sum_set List.length slots i ((slots.getD i []).tail) hi
  have h2 := map_sum_set List.length (slots.set i ((slots.getD i []).tail)) f
    ((slots.getD i []).headD ⟨"", 0⟩ :: slots.getD f []) (by simpa using hf)
  rw [hgf] at h2
  simp only [List.length_cons, List.length_tail, hfe] at h1 h2
  omega

lemma sq_measure_move_lt {slots : Slots} {i f : Nat}
    (hi : i < slots.length) (hf : f < slots.length)
    (hie : 1 < (slots.getD i []).length) (hfe : (slots.getD f []).length = 0) :
    sq_measure (move_top slots i f) < sq_measure slots := by
  have hne : i ≠ f := fun h => by rw [h, hfe] at hie; omega
  have hgf : (slots.set i ((slots.getD i []).tail)).getD f [] = slots.getD f [] :=
    getD_set_ne slots i f _ hne
  unfold move_top sq_measure
  simp only [hgf]
  have h1 := map_sum_set (fun s => s.length * s.length) slots i ((slots.getD i []).tail) hi
  have h2 := map_sum_set (fun s => s.length * s.length) (slots.set i ((slots.getD i []).tail)) f
    ((slots.getD i []).headD ⟨"", 0⟩ :: slots.getD f []) (by simpa using hf)
  rw [hgf] at h2
  simp only at h1 h2
  simp only [List.length_cons, List.length_tail, hfe] at h1 h2
  obtain ⟨m, hm⟩ : ∃ m, (slots.getD i []).length = m + 2 :=
    ⟨(slots.getD i []).length - 2, by omega⟩
  rw [hm] at h1
  have hm1 : m + 2 - 1 = m + 1 := by omega
  rw [hm1] at h1
  have hkey : (m + 1) * (m + 1) + 2 ≤ (m + 2) * (m + 2) := by nlinarith
  omega

/-- The stabilization loop of `play_turn` (`main.py` lines 113-125): run
the removal pass, and if an empty slot exists and the heuristic names a
slot whose top to relocate (a non-`None`, non-empty — hence truthy —
slot), move that top card onto the first empty slot and repeat.
Returns the stabilized slots and the total cards removed. -/
def stab_loop (slots : Slots) : Slots × Nat :=
  let r := Board.remove_cards slots false
  match h1 : first_free r.1 with
  | none => r
  | some f =>
    match h2 : Board.check_best_to_move r.1 with
    | none => r
    | some i =>
      if hz : (r.1.getD i []).length = 0 then r
      else
        let r2 := stab_loop (move_top r.1 i f)
        (r2.1, r.2 + r2.2)
termination_by sq_measure slots
decreasing_by
  have hle : sq_measure r.1 ≤ sq_measure slots := by
    simpa [r, remove_cards_false] using sq_measure_removeLoop_le slots
  obtain ⟨hf, hfe⟩ := first_free_some h1
  obtain ⟨hi, hie, _⟩ := check_best_some h2
  exact lt_of_lt_of_le (sq_measure_move_lt hi hf hie hfe) hle

lemma stab_loop_of_none_free {slots : Slots}
    (h : first_free (Board.remove_cards slots false).1 = none) :
    stab_loop slots = Board.remove_cards slots false := by
  rw [stab_loop.eq_def]
  simp only
  split
  · rfl
  · rename_i f heq
    rw [h] at heq
    exact absurd heq (by simp)

lemma stab_loop_of_none_best {slots : Slots}
    (h2 : Board.check_best_to_move (Board.remove_cards slots false).1 = none) :
    stab_loop slots = Board.remove_cards slots false := by
  rw [stab_loop.eq_def]
  simp only
  split
  · rfl
  · rename_i f' heq
    split
    · rfl
    · rename_i i' heq2
      simp [h2] at heq2

lemma stab_loop_of_move {slots : Slots} {f i : Nat}
    (h1 : first_free (Board.remove_cards slots false).1 = some f)
    (h2 : Board.check_best_to_move (Board.remove_cards slots false).1 = some i) :
    stab_loop slots =
      ((stab_loop (move_top (Board.remove_cards slots false).1 i f)).1,
       (Board.remove_cards slots false).2 +
         (stab_loop (move_top (Board.remove_cards slots false).1 i f)).2) := by
  have hie := (check_best_some h2).2.1
  rw [stab_loop.eq_def]
  simp only
  split
  · rename_i heq
    rw [h1] at heq
    exact absurd heq (by simp)
  · rename_i f' heq
    rw [h1] at heq
    injection heq with hf
    subst hf
    split
    · rename_i heq2
      rw [h2] at heq2
      exact absurd heq2 (by simp)
    · rename_i i' heq2
      rw [h2] at heq2
      injection heq2 with hi
      subst hi
      rw [dif_neg (by omega : ¬ ((Board.remove_cards slots false).1.getD i []).length = 0)]


/-- The stabilization loop conserves cards: final slot total plus the
cards removed during the loop equals the initial slot total. -/
lemma stab_loop_conserves (slots : Slots) :
    total_cards (stab_loop slots).1 + (stab_loop slots).2 = total_cards slots := by
  induction slots using stab_loop.induct with
  | case1 s r h =>
    rw [stab_loop_of_none_free (by simpa [r] using h)]
    simpa [remove_cards_false] using removeLoop_conserves s
  | case2 s r f h1 h2 =>
    rw [stab_loop_of_none_best (by simpa [r] using h2)]
    simpa [remove_cards_false] using removeLoop_conserves s
  | case3 s r f h1 i h2 hz =>
    have h2' : Board.check_best_to_move (Board.remove_cards s false).1 = some i := by
      simpa [r] using h2
    have hie := (check_best_some h2').2.1
    have hz' : (List.getD (Board.remove_cards s false).1 i []).length = 0 := by
      simpa [r] using hz
    omega
  | case4 s r f h1 i h2 hz ih =>
    have h1' : first_free (Board.remove_cards s false).1 = some f := by simpa [r] using h1
    have h2' : Board.check_best_to_move (Board.remove_cards s false).1 = some i := by
      simpa [r] using h2
    rw [stab_loop_of_move h1' h2']
    obtain ⟨hf, hfe⟩ := first_free_some h1'
    obtain ⟨hi, hie, _⟩ := check_best_some h2'
    have hmv := total_cards_move hi hf hie hfe
    have hrc : total_cards (Board.remove_cards s false).1 + (Board.remove_cards s false).2 =
        total_cards s := by
      simpa [remove_cards_false] using removeLoop_conserves s
    have ih' : total_cards (stab_loop (move_top (Board.remove_cards s false).1 i f)).1 +
        (stab_loop (move_top (Board.remove_cards s false).1 i f)).2 =
        total_cards (move_top (Board.remove_cards s false).1 i f) := by
      simpa [r] using ih
    simp only
    omega

/-- The board state: four slots plus the deck (`main.py` lines 42-44). -/
structure Board where
  slots : Slots
  deck : List Card

/-- Method `Board.__init__` (`main.py` lines 42-44): four empty slots and a
freshly built deck; the `deck` argument stands for the shuffled order. -/
def Board.init (deck : List Card) : Board := ⟨[[], [], [], []], deck⟩

/-- The dealing loop of `play_turn` (`main.py` lines 109-110):
`for slot in self._slots: slot.append(self._deck.draw())` — each slot in
order receives one card drawn from the deck's end.  A draw from an
exhausted deck propagates the exception. -/
def deal_slots : Slots → List Card → Except PyError (Slots × List Card)
  | [], deck => .ok ([], deck)
  | slot :: rest, deck =>
    match Deck.draw deck with
    | .error e => .error e
    | .ok (c, deck') =>
      match deal_slots rest deck' with
      | .error e => .error e
      | .ok (rest', deck'') => .ok ((c :: slot) :: rest', deck'')

/-- Method `Board.play_turn` (`main.py` lines 108-125): deal one card onto every
slot, then run the stabilization loop.  Returns the resulting board and
this turn's removal count. -/
def Board.play_turn (b : Board) : Except PyError (Board × Nat) :=
  match deal_slots b.slots b.deck with
  | .error e => .error e
  | .ok (slots', deck') =>
    let r := stab_loop slots'
    .ok (⟨r.1, deck'⟩, r.2)

/-- Method `Board.cards_count` (`main.py` lines 127-128). -/
def Board.cards_count (b : Board) : Nat := (b.slots.map List.length).sum

lemma draw_ok {deck deck' : List Card} {c : Card} (h : Deck.draw deck = .ok (c, deck')) :
    deck'.length + 1 = deck.length := by
  unfold Deck.draw at h
  rcases hg : deck.getLast? with _ | d <;> rw [hg] at h
  · simp at h
  · simp only [Except.ok.injEq, Prod.mk.injEq] at h
    obtain ⟨h1, h2⟩ := h
    subst h2
    have : deck ≠ [] := by
      intro hnil
      rw [hnil] at hg
      simp at hg
    rw [List.length_dropLast]
    have := List.length_pos.mpr this
    omega

lemma deal_slots_ok {slots : Slots} {deck : List Card} {slots' : Slots} {deck' : List Card}
    (h : deal_slots slots deck = .ok (slots', deck')) :
    total_cards slots' = total_cards slots + slots.length ∧
    deck'.length + slots.length = deck.length ∧ slots'.length = slots.length := by
  induction slots generalizing deck slots' deck' with
  | nil =>
    unfold deal_slots at h
    simp only [Except.ok.injEq, Prod.mk.injEq] at h
    obtain ⟨h1, h2⟩ := h
    subst h1; subst h2
    simp
  | cons slot rest ih =>
    unfold deal_slots at h
    split at h
    · simp at h
    · rename_i c deck1 hd
      split at h
      · simp at h
      · rename_i rest' deck2 hr
        simp only [Except.ok.injEq, Prod.mk.injEq] at h
        obtain ⟨h1, h2⟩ := h
        subst h1; subst h2
        obtain ⟨ha, hb, hc⟩ := ih hr
        have hdr := draw_ok hd
        refine ⟨?_, by simp only [List.length_cons]; omega, by simp [hc]⟩
        simp only [total_cards, List.map_cons, List.sum_cons, List.length_cons] at ha ⊢
        omega

lemma deal_slots_succeeds {slots : Slots} {deck : List Card}
    (h : slots.length ≤ deck.length) :
    ∃ slots' deck', deal_slots slots deck = .ok (slots', deck') := by
  induction slots generalizing deck with
  | nil => exact ⟨[], deck, rfl⟩
  | cons slot rest ih =>
    have hne : deck ≠ [] := by
      intro hnil
      rw [hnil] at h
      simp at h
    rcases hg : deck.getLast? with _ | c
    · rw [List.getLast?_eq_none_iff] at hg
      exact absurd hg hne
    · have hd : Deck.draw deck = .ok (c, deck.dropLast) := by
        unfold Deck.draw
        rw [hg]
      have hlen : rest.length ≤ deck.dropLast.length := by
        rw [List.length_dropLast]
        simp only [List.length_cons] at h
        omega
      obtain ⟨rest', deck'', hr⟩ := ih hlen
      refine ⟨(c :: slot) :: rest', deck'', ?_⟩
      unfold deal_slots
      simp only [hd, hr]

/-- The stabilization loop of `play_turn` again, instrumented with an
explicit iteration budget: `none` means the budget was exhausted before
the loop finished.  Used to state that the loop always finishes within a
bounded number of iterations. -/
def stab_loop_fuel : Nat → Slots → Option (Slots × Nat)
  | 0, _ => none
  | fuel + 1, slots =>
    let r := Board.remove_cards slots false
    match first_free r.1 with
    | none => some r
    | some f =>
      match Board.check_best_to_move r.1 with
      | none => some r
      | some i =>
        if (r.1.getD i []).length = 0 then some r
        else
          match stab_loop_fuel fuel (move_top r.1 i f) with
          | none => none
          | some r2 => some (r2.1, r.2 + r2.2)

/-- A budget exceeding the sum of squared slot sizes is always enough:
the instrumented loop finishes and agrees with the uninstrumented one. -/
lemma stab_loop_fuel_adequate :
    ∀ (n : Nat) (slots : Slots), sq_measure slots < n →
      stab_loop_fuel n slots = some (stab_loop slots) := by
  intro n
  induction n with
  | zero => intro slots h; omega
  | succ n ih =>
    intro slots h
    show (let r := Board.remove_cards slots false
      match first_free r.1 with
      | none => some r
      | some f =>
        match Board.check_best_to_move r.1 with
        | none => some r
        | some i =>
          if (r.1.getD i []).length = 0 then some r
          else
            match stab_loop_fuel n (move_top r.1 i f) with
            | none => none
            | some r2 => some (r2.1, r.2 + r2.2)) = some (stab_loop slots)
    simp only
    rcases h1 : first_free (Board.remove_cards slots false).1 with _ | f
    · rw [stab_loop_of_none_free h1]
    · rcases h2 : Board.check_best_to_move (Board.remove_cards slots false).1 with _ | i
      · rw [stab_loop_of_none_best h2]
      · obtain ⟨hi, hie, _⟩ := check_best_some h2
        obtain ⟨hf, hfe⟩ := first_free_some h1
        simp only
        rw [if_neg (by omega : ¬ ((Board.remove_cards slots false).1.getD i []).length = 0)]
        have hlt : sq_measure (move_top (Board.remove_cards slots false).1 i f) < n := by
          have ha := sq_measure_move_lt hi hf hie hfe
          have hb : sq_measure (Board.remove_cards slots false).1 ≤ sq_measure slots := by
            simpa [remove_cards_false] using sq_measure_removeLoop_le slots
          omega
        rw [ih _ hlt]
        rw [stab_loop_of_move h1 h2]

lemma play_turn_conserves {b b' : Board} {n removed : Nat}
    (hinv : total_cards b.slots + b.deck.length + removed = 36)
    (h : Board.play_turn b = .ok (b', n)) :
    total_cards b'.slots + b'.deck.length + (removed + n) = 36 := by
  unfold Board.play_turn at h
  split at h
  · simp at h
  · rename_i slots' deck' hdeal
    simp only [Except.ok.injEq, Prod.mk.injEq] at h
    obtain ⟨h1, h2⟩ := h
    subst h2
    obtain ⟨hd1, hd2, _⟩ := deal_slots_ok hdeal
    have hs := stab_loop_conserves slots'
    rw [← h1]
    simp only
    omega

lemma play_turn_ok {b : Board} (hlen : b.slots.length ≤ b.deck.length) :
    ∃ p, Board.play_turn b = .ok p := by
  obtain ⟨s', d', hd⟩ := deal_slots_succeeds hlen
  refine ⟨(⟨(stab_loop s').1, d'⟩, (stab_loop s').2), ?_⟩
  unfold Board.play_turn
  simp only [hd]

/-- A small concrete board used to exercise the heuristic: slot 0 holds
two cards, slot 1 one card, slots 2 and 3 are empty; all suits differ,
so no removal is ever possible. -/
def demo_slots : Slots := [[⟨"Schelle", 6⟩, ⟨"Schilte", 7⟩], [⟨"Eichel", 8⟩], [], []]

lemma simCount_demo : simCount demo_slots 0 = 0 := by
  unfold simCount
  rw [remove_cards_true, removeLoop_none (by rfl)]

lemma check_best_demo : Board.check_best_to_move demo_slots = some 0 := by
  rw [check_best_eq_single]
  unfold check_best_to_move_single check_scan
  rw [show demo_slots.length = 4 from rfl]
  rw [show List.range 4 = [0, 1, 2, 3] from rfl]
  simp only [List.foldl_cons, List.foldl_nil]
  rw [check_step_simCount, check_step_simCount, check_step_simCount, check_step_simCount]
  rw [simCount_demo]
  norm_num [demo_slots]

/-- A concrete 4-card deck order (one card per suit). -/
def demo_deck : List Card := [⟨"Schelle", 6⟩, ⟨"Schilte", 6⟩, ⟨"Eichel", 6⟩, ⟨"Rose", 6⟩]

/-- A board about to play its last turn: empty slots, 4 cards left. -/
def demo_board : Board := ⟨[[], [], [], []], demo_deck⟩

/-- The slots of `demo_board` after dealing: draws come from the deck's
end, so slot 0 receives the Rose card first. -/
def demo_dealt : Slots := [[⟨"Rose", 6⟩], [⟨"Eichel", 6⟩], [⟨"Schilte", 6⟩], [⟨"Schelle", 6⟩]]

lemma demo_play_turn : Board.play_turn demo_board = .ok (⟨demo_dealt, []⟩, 0) := by
  have h1 : Board.remove_cards demo_dealt false = (demo_dealt, 0) := by
    rw [remove_cards_false]
    exact removeLoop_none (by rfl)
  have h2 : stab_loop demo_dealt = (demo_dealt, 0) := by
    rw [stab_loop_of_none_free (by rw [h1]; rfl)]
    exact h1
  unfold Board.play_turn
  rw [show deal_slots demo_board.slots demo_board.deck = .ok (demo_dealt, []) from rfl]
  simp only [h2]

/-- Claim C1: after `remove_cards` returns in non-simulated mode, the board is
a fixed point of the elimination rule — no ordered pair of distinct slot
indices has both slots non-empty with `top(i1).lower(top(i2))` true;
cascading removals were already resolved inside the loop. -/
theorem C1_removal_fixed_point (slots : Slots) (i1 i2 : Nat) (c1 c2 : Card)
    (hne : i1 ≠ i2)
    (h1 : i1 < (Board.remove_cards slots false).1.length)
    (h2 : i2 < (Board.remove_cards slots false).1.length)
    (ht1 : ((Board.remove_cards slots false).1.getD i1 []).head? = some c1)
    (ht2 : ((Board.remove_cards slots false).1.getD i2 []).head? = some c2) :
    c1.lower (.card c2) = false := by
  have hfix : firstRemoval (Board.remove_cards slots false).1 = none := by
    simpa [remove_cards_false] using firstRemoval_removeLoop slots
  rw [firstRemoval, List.findSome?_eq_none_iff] at hfix
  have hthis := hfix (i1, i2) (mem_perms2.mpr ⟨h1, h2, hne⟩)
  unfold removal_at at hthis
  rw [ht1, ht2] at hthis
  simp only at hthis
  by_cases hl : c1.lower (.card c2) = true
  · rw [if_pos hl] at hthis
    simp at hthis
  · simpa using hl

/-- Witness for C1: a concrete stable board (two singleton slots of
different suits) instantiating the fixed-point theorem at `(0, 1)`. -/
theorem C1_witness :
    ((Board.remove_cards [[⟨"Schelle", 6⟩], [⟨"Eichel", 9⟩], [], []] false).1.getD 0 []).head? =
      some ⟨"Schelle", 6⟩ ∧
    ((Board.remove_cards [[⟨"Schelle", 6⟩], [⟨"Eichel", 9⟩], [], []] false).1.getD 1 []).head? =
      some ⟨"Eichel", 9⟩ ∧
    Card.lower ⟨"Schelle", 6⟩ (.card ⟨"Eichel", 9⟩) = false := by
  have hv : Board.remove_cards [[⟨"Schelle", 6⟩], [⟨"Eichel", 9⟩], [], []] false =
      ([[⟨"Schelle", 6⟩], [⟨"Eichel", 9⟩], [], []], 0) := by
    rw [remove_cards_false]
    exact removeLoop_none (by rfl)
  refine ⟨by rw [hv]; rfl, by rw [hv]; rfl,
    C1_removal_fixed_point [[⟨"Schelle", 6⟩], [⟨"Eichel", 9⟩], [], []] 0 1 ⟨"Schelle", 6⟩
      ⟨"Eichel", 9⟩ (by decide) (by rw [hv]; decide) (by rw [hv]; decide)
      (by rw [hv]; rfl) (by rw [hv]; rfl)⟩

/-- Claim C2: card conservation — a fresh board with a 36-card deck satisfies
`slot total + deck size + removed = 36`; the non-simulated removal pass
only converts slot cards into removed cards; and every completed
`play_turn` preserves the invariant, accumulating the turn's removal
count. -/
theorem C2_conservation :
    (∀ deck : List Card, deck.length = 36 →
      total_cards (Board.init deck).slots + (Board.init deck).deck.length + 0 = 36) ∧
    (∀ slots : Slots,
      total_cards (Board.remove_cards slots false).1 + (Board.remove_cards slots false).2 =
        total_cards slots) ∧
    (∀ (b b' : Board) (n removed : Nat),
      total_cards b.slots + b.deck.length + removed = 36 →
      Board.play_turn b = .ok (b', n) →
      total_cards b'.slots + b'.deck.length + (removed + n) = 36) := by
  refine ⟨?_, ?_, ?_⟩
  · intro deck h
    simp [Board.init, total_cards, h]
  · intro slots
    simpa [remove_cards_false] using removeLoop_conserves slots
  · intro b b' n removed hinv h
    exact play_turn_conserves hinv h

/-- Witness for C2: a concrete last turn (4 distinct-suit cards dealt from a
4-card deck, 32 cards already removed in the fiction of the invariant)
preserving the conservation equation. -/
theorem C2_witness :
    total_cards demo_board.slots + demo_board.deck.length + 32 = 36 ∧
    Board.play_turn demo_board = .ok (⟨demo_dealt, []⟩, 0) ∧
    total_cards (⟨demo_dealt, []⟩ : Board).slots + (⟨demo_dealt, []⟩ : Board).deck.length +
      (32 + 0) = 36 :=
  ⟨by decide, demo_play_turn,
    C2_conservation.2.2 demo_board ⟨demo_dealt, []⟩ 0 32 (by decide) demo_play_turn⟩

/-- Claim C3: simulate mode is pure — the deep copy is a value-identical copy
of the slots, the live slots returned by a simulated `remove_cards` are
exactly the input slots, and only the count (computed on the copy, hence
equal to the count the real pass would produce) is returned. -/
theorem C3_simulation_purity (slots : Slots) :
    deepcopy slots = slots ∧
    (Board.remove_cards slots true).1 = slots ∧
    (Board.remove_cards slots true).2 = (removeLoop slots).2 := by
  refine ⟨deepcopy_eq slots, ?_, ?_⟩ <;> simp [remove_cards_true]

/-- Claim C4: the heuristic considers exactly the slots holding more than one
card, scores each by the simulated removal count with its top popped
(`simCount`), returns a candidate achieving the maximum (the `-1`
sentinel means a zero-removal candidate still wins over no move), and
returns `none` exactly when no slot holds more than one card. -/
theorem C4_best_move_spec (slots : Slots) :
    (Board.check_best_to_move slots = none ↔
      ∀ j < slots.length, ¬ 1 < (slots.getD j []).length) ∧
    (∀ i, Board.check_best_to_move slots = some i →
      i < slots.length ∧ 1 < (slots.getD i []).length ∧
      ∀ j < slots.length, 1 < (slots.getD j []).length →
        simCount slots j ≤ simCount slots i) :=
  ⟨check_best_none_iff slots, fun _ h => check_best_some h⟩

/-- Witness for C4: on `demo_slots` only slot 0 is a candidate; it achieves
simulated count 0 and is still selected (0 > sentinel -1). -/
theorem C4_witness :
    Board.check_best_to_move demo_slots = some 0 ∧
    0 < demo_slots.length ∧ 1 < (demo_slots.getD 0 []).length ∧
    ∀ j < demo_slots.length, 1 < (demo_slots.getD j []).length →
      simCount demo_slots j ≤ simCount demo_slots 0 :=
  ⟨check_best_demo, (C4_best_move_spec demo_slots).2 0 check_best_demo⟩

/-- Claim C5: the outer `while` wrapper of `check_best_to_move` never repeats —
the wrapped loop run from any state equals one bare scan, and the whole
function equals the same search written without the wrapper. -/
theorem C5_single_scan (slots : Slots) (st : Int × Option Nat) :
    check_loop slots true st = check_scan slots st ∧
    Board.check_best_to_move slots = check_best_to_move_single slots :=
  ⟨check_loop_true slots st, check_best_eq_single slots⟩

/-- Claim C6: the pair scan order is exactly the lexicographic enumeration of
ordered pairs of distinct indices of the 4 slots; the first eligible
pair (both non-empty, `top(i1).lower(top(i2))`) pops slot `i1`'s top and
counts it, after which the whole scan restarts; a pass finding nothing
ends the loop. -/
theorem C6_scan_order (slots : Slots) (h4 : slots.length = 4) :
    perms2 4 = [(0, 1), (0, 2), (0, 3), (1, 0), (1, 2), (1, 3),
                (2, 0), (2, 1), (2, 3), (3, 0), (3, 1), (3, 2)] ∧
    firstRemoval slots =
      ([(0, 1), (0, 2), (0, 3), (1, 0), (1, 2), (1, 3),
        (2, 0), (2, 1), (2, 3), (3, 0), (3, 1), (3, 2)]).findSome? (removal_at slots) ∧
    (∀ i, firstRemoval slots = some i →
      Board.remove_cards slots false =
        ((Board.remove_cards (popAt slots i) false).1,
         (Board.remove_cards (popAt slots i) false).2 + 1)) ∧
    (firstRemoval slots = none → Board.remove_cards slots false = (slots, 0)) := by
  refine ⟨by decide, ?_, ?_, ?_⟩
  · unfold firstRemoval
    rw [h4]
    rfl
  · intro i h
    rw [remove_cards_false, remove_cards_false]
    exact removeLoop_some h
  · intro h
    rw [remove_cards_false]
    exact removeLoop_none h

/-- Witness for C6: on `[[Schelle 6], [Schelle 9], [], []]` the first eligible
pair is `(0, 1)` and one card is removed; the empty board removes
nothing. -/
theorem C6_witness :
    Board.remove_cards [[⟨"Schelle", 6⟩], [⟨"Schelle", 9⟩], [], []] false =
      ((Board.remove_cards (popAt [[⟨"Schelle", 6⟩], [⟨"Schelle", 9⟩], [], []] 0) false).1,
       (Board.remove_cards (popAt [[⟨"Schelle", 6⟩], [⟨"Schelle", 9⟩], [], []] 0) false).2 + 1) ∧
    Board.remove_cards ([[], [], [], []] : Slots) false = ([[], [], [], []], 0) :=
  ⟨(C6_scan_order [[⟨"Schelle", 6⟩], [⟨"Schelle", 9⟩], [], []] (by decide)).2.2.1 0 (by rfl),
   (C6_scan_order [[], [], [], []] (by decide)).2.2.2 (by rfl)⟩

/-- Claim C7: `play_turn` terminates — the stabilization loop finishes within
`sq_measure + 1` iterations (the instrumented loop with that budget
agrees with the uninstrumented one), and on a 4-slot board with at least
4 cards in the deck the whole turn completes normally. -/
theorem C7_turn_terminates :
    (∀ slots : Slots, stab_loop_fuel (sq_measure slots + 1) slots = some (stab_loop slots)) ∧
    (∀ b : Board, b.slots.length = 4 → 4 ≤ b.deck.length →
      ∃ p, Board.play_turn b = .ok p) := by
  constructor
  · intro slots
    exact stab_loop_fuel_adequate _ _ (by omega)
  · intro b h4 hd
    exact play_turn_ok (by omega)

/-- Witness for C7: the demo board (4 slots, 4-card deck) plays its turn to
completion, and the instrumented loop with the stated budget finishes on
its dealt slots. -/
theorem C7_witness :
    stab_loop_fuel (sq_measure demo_dealt + 1) demo_dealt = some (stab_loop demo_dealt) ∧
    demo_board.slots.length = 4 ∧ 4 ≤ demo_board.deck.length ∧
    ∃ p, Board.play_turn demo_board = .ok p :=
  ⟨C7_turn_terminates.1 demo_dealt, by decide, by decide,
   C7_turn_terminates.2 demo_board (by decide) (by decide)⟩

/-- Claim C8 as stated is false at the concrete input `[]`: the code has no
`EmptyDeckError` class and no guard — drawing from the empty deck fails
with the generic `IndexError` that `list.pop()` raises. -/
theorem C8_counterexample :
    Deck.draw [] ≠ Except.error PyError.emptyDeckError ∧
    Deck.draw [] = Except.error PyError.indexError := by
  constructor
  · intro h
    rw [show Deck.draw [] = Except.error PyError.indexError from rfl] at h
    simp at h
  · rfl

/-- Claim C8 amended: `Deck.draw` on an empty deck fails with the generic
`IndexError` raised by the underlying `list.pop()` (the code defines no
dedicated `EmptyDeckError` and has no explicit guard), and on a
non-empty deck it removes and returns the last element of the ordered
sequence. -/
theorem C8_draw_spec (cards : List Card) :
    (cards = [] → Deck.draw cards = .error .indexError) ∧
    (∀ (pre : List Card) (c : Card), cards = pre ++ [c] → Deck.draw cards = .ok (c, pre)) := by
  constructor
  · rintro rfl
    rfl
  · rintro pre c rfl
    unfold Deck.draw
    rw [List.getLast?_concat]
    simp

/-- Witness for C8: the amended behavior at the empty deck and at a
one-card deck. -/
theorem C8_witness :
    Deck.draw [] = .error .indexError ∧
    Deck.draw [⟨"Rose", 14⟩] = .ok (⟨"Rose", 14⟩, []) :=
  ⟨(C8_draw_spec []).1 rfl, (C8_draw_spec [⟨"Rose", 14⟩]).2 [] ⟨"Rose", 14⟩ rfl⟩

/-- Claim C9: `lower` on same-suit cards is exactly strict comparison of the
values; across suits it is false in both directions; and against any
non-Card argument it is false rather than an error. -/
theorem C9_lower_spec :
    (∀ a b : Card, a.suit = b.suit → a.lower (.card b) = decide (a.value < b.value)) ∧
    (∀ a b : Card, a.suit ≠ b.suit →
      a.lower (.card b) = false ∧ b.lower (.card a) = false) ∧
    (∀ (a : Card) (t : Nat), a.lower (.obj t) = false) := by
  refine ⟨?_, ?_, ?_⟩
  · intro a b h
    simp [Card.lower, h]
  · intro a b h
    constructor
    · simp [Card.lower, h]
    · simp [Card.lower, Ne.symm h]
  · intro a t
    rfl

/-- Witness for C9: same-suit comparison, a cross-suit pair in both
directions, and a non-Card argument, all at concrete cards. -/
theorem C9_witness :
    Card.lower ⟨"Schelle", 6⟩ (.card ⟨"Schelle", 9⟩) = decide ((6 : Nat) < 9) ∧
    Card.lower ⟨"Schelle", 6⟩ (.card ⟨"Eichel", 6⟩) = false ∧
    Card.lower ⟨"Eichel", 6⟩ (.card ⟨"Schelle", 6⟩) = false ∧
    Card.lower ⟨"Schelle", 6⟩ (.obj 0) = false :=
  ⟨C9_lower_spec.1 ⟨"Schelle", 6⟩ ⟨"Schelle", 9⟩ rfl,
   (C9_lower_spec.2.1 ⟨"Schelle", 6⟩ ⟨"Eichel", 6⟩ (by decide)).1,
   (C9_lower_spec.2.1 ⟨"Schelle", 6⟩ ⟨"Eichel", 6⟩ (by decide)).2,
   C9_lower_spec.2.2 ⟨"Schelle", 6⟩ 0⟩

/-- Claim C10: a slot returned by `check_best_to_move` is one of the board's
slots and holds at least two cards at the moment of return: it is
non-empty (so the Python truthiness test cannot mistake it for "no
move", and popping it is safe) and still non-empty after its top is
popped. -/
theorem C10_safe_move (slots : Slots) (i : Nat)
    (h : Board.check_best_to_move slots = some i) :
    i < slots.length ∧ 1 < (slots.getD i []).length ∧
    slots.getD i [] ≠ [] ∧ (slots.getD i []).tail ≠ [] := by
  obtain ⟨hi, hie, _⟩ := check_best_some h
  refine ⟨hi, hie, ?_, ?_⟩
  · intro hnil
    rw [hnil] at hie
    simp at hie
  · intro hnil
    have ht : (slots.getD i []).tail.length = (slots.getD i []).length - 1 :=
      List.length_tail _
    rw [hnil] at ht
    simp only [List.length_nil] at ht
    omega

/-- Witness for C10: on `demo_slots` the heuristic returns slot 0, which
holds two cards, is truthy, and keeps one card after the pop. -/
theorem C10_witness :
    Board.check_best_to_move demo_slots = some 0 ∧
    0 < demo_slots.length ∧ 1 < (demo_slots.getD 0 []).length ∧
    demo_slots.getD 0 [] ≠ [] ∧ (demo_slots.getD 0 []).tail ≠ [] :=
  ⟨check_best_demo, (C10_safe_move demo_slots 0 check_best_demo).1,
   (C10_safe_move demo_slots 0 check_best_demo).2.1,
   (C10_safe_move demo_slots 0 check_best_demo).2.2.1,
   (C10_safe_move demo_slots 0 check_best_demo).2.2.2⟩
